import Mathlib

/-!
# Verification of `maud_lints/src/util.rs`

A shallow embedding of the lint-utility module of the `maud` repository:
the HIR expression shapes the module inspects, the resolution context it
consults, and the four functions `match_def_path`, `match_marker_type`,
`extract_strings` and `extract_attrs`, translated from the Rust source.
Theorems about these definitions follow the definitions.
-/

namespace MaudUtil

/-- Source span (`syntax_pos::Span`), modelled as a half-open byte range. -/
structure Span where
  lo : Nat
  hi : Nat
deriving DecidableEq, Repr

/-- `Span::to`: a span stretching from the start of `a` to the end of `b`. -/
def Span.to (a b : Span) : Span := ⟨a.lo, b.hi⟩

/-- String-literal style (`syntax::ast::StrStyle`): cooked or raw. -/
inductive StrStyle where
  | Cooked : StrStyle
  | Raw : Nat → StrStyle
deriving DecidableEq, Repr

/-- Literal kinds (`syntax::ast::LitKind`): the string case carries its
style; the remaining kinds are collapsed into representatives, since the
module only ever distinguishes cooked string literals from everything
else. -/
inductive LitKind where
  | Str : String → StrStyle → LitKind
  | Int : Nat → LitKind
  | other : LitKind
deriving DecidableEq, Repr

/-- A literal (`syntax::ast::Lit`): kind plus its own source span. -/
structure Lit where
  node : LitKind
  span : Span
deriving DecidableEq, Repr

/-- Mutability of a borrow (`rustc::hir::Mutability`). -/
inductive Mutability where
  | MutImmutable : Mutability
  | MutMutable : Mutability
deriving DecidableEq, Repr

/-- Opaque id of a `QPath` node; the module never looks inside a qpath,
it only hands it to the resolution tables. -/
abbrev QPath := Nat

/-- HIR node id (`hir_id` of an expression). -/
abbrev HirId := Nat

/-- Definition identifier (`rustc::hir::def_id::DefId`), opaque here. -/
abbrev DefId := Nat

mutual

/-- HIR expression shapes (`rustc::hir::Expr`), restricted to the node
kinds the module matches on.  Spans of non-literal nodes are omitted: the
module never consults them.  The `path` constructor carries the `hir_id`
of the path expression, the only expression id the module reads.
`methodCall` and `other` stand for every remaining `Expr_` variant, all of
which the module treats alike (no match). -/
inductive Expr : Type where
  | call : Expr → List Expr → Expr
  | path : QPath → HirId → Expr
  | lit : Lit → Expr
  | addrOf : Mutability → Expr → Expr
  | array : List Expr → Expr
  | block : List Stmt → Option Expr → Expr
  | methodCall : List Expr → Expr
  | other : Expr

/-- HIR statements (`rustc::hir::Stmt`): declarations, expression
statements without a trailing semicolon, and semicolon-terminated
expression statements (`StmtSemi`, which also carries a node id). -/
inductive Stmt : Type where
  | decl : Stmt
  | expr : Expr → Stmt
  | semi : Expr → Nat → Stmt

end

/-- The slice of `rustc::lint::LateContext` the module consults:
`cx.tables.qpath_def(qpath, hir_id).def_id()` and
`cx.tcx.push_item_path(&mut buffer, def_id)`, the latter modelled as the
absolute path (list of segment names, root-qualified) the buffer holds
after the call. -/
structure LateContext where
  qpath_def : QPath → HirId → DefId
  item_path : DefId → List String

/-- `match_def_path`: resolve `def_id` to its absolute path and compare it
against `path` for exact positional equality. -/
def match_def_path (cx : LateContext) (def_id : DefId) (path : List String) : Bool :=
  let names := cx.item_path def_id
  names.length == path.length && (names.zip path).all fun ab => ab.1 == ab.2

/-- `match_marker_type`: if `expr` is a call whose callee is a path
expression resolving to `maud::marker::<marker_type>`, return the call's
arguments; otherwise `none`. -/
def match_marker_type (cx : LateContext) (expr : Expr) (marker_type : String) :
    Option (List Expr) :=
  match expr with
  | .call path_expr args =>
    match path_expr with
    | .path qpath hir_id =>
      let def_id := cx.qpath_def qpath hir_id
      if match_def_path cx def_id ["maud", "marker", marker_type] then some args else none
    | _ => none
  | _ => none

/-- The element loop of `extract_strings`: walk the array elements in
order, requiring each to be a cooked string literal; accumulate the text
in `content` and extend the running `span`; abort with `none` on the first
element of any other shape.  At the end, `span.map` yields `none` exactly
when no element was ever seen. -/
def extract_strings_loop : List Expr → String → Option Span → Option (String × Span)
  | [], content, span => span.map fun sp => (content, sp)
  | e :: rest, content, span =>
    match e with
    | .lit l =>
      match l.node with
      | .Str s .Cooked =>
        match span with
        | some sp => extract_strings_loop rest (content ++ s) (some (sp.to l.span))
        | none => extract_strings_loop rest (content ++ s) (some l.span)
      | _ => none
    | _ => none

/-- `extract_strings`: accept only an immutable borrow of an array
literal, then run the element loop over its elements. -/
def extract_strings (expr : Expr) : Option (String × Span) :=
  match expr with
  | .addrOf .MutImmutable (.array args) => extract_strings_loop args "" none
  | _ => none

/-- `extract_attrs`: accept only a block expression; map each
semicolon-terminated statement whose expression is a
`maud::marker::attribute` call through `extract_strings` on the call's
first argument, skipping every statement that fails any of these steps. -/
def extract_attrs (cx : LateContext) (expr : Expr) : Option (List (String × Span)) :=
  match expr with
  | .block stmts _tail =>
    some (stmts.filterMap fun stmt =>
      match stmt with
      | .semi e _ =>
        match match_marker_type cx e "attribute" with
        | some args => (args.get? 0).bind extract_strings
        | none => none
      | _ => none)
  | _ => none

/-- Zipping a list with itself pairs each element with itself, so the
elementwise comparison succeeds. -/
lemma zip_self_all (l : List String) :
    ((l.zip l).all fun ab => ab.1 == ab.2) = true := by
  induction l with
  | nil => rfl
  | cons a t ih => simp [List.zip_cons_cons, ih]

/-- The boolean segment comparison of `match_def_path` succeeds exactly on
equal lists. -/
lemma beq_zip_all_iff (l₁ l₂ : List String) :
    ((l₁.length == l₂.length) && ((l₁.zip l₂).all fun ab => ab.1 == ab.2)) = true ↔
      l₁ = l₂ := by
  constructor
  · intro h
    induction l₁ generalizing l₂ with
    | nil =>
      cases l₂ with
      | nil => rfl
      | cons b m => simp at h
    | cons a l ih =>
      cases l₂ with
      | nil => simp at h
      | cons b m =>
        simp only [List.length_cons, List.zip_cons_cons, List.all_cons, Bool.and_eq_true,
          beq_iff_eq] at h
        obtain ⟨hlen, hab, hall⟩ := h
        have hl : l = m := ih m (by simp [hall]; omega)
        rw [hab, hl]
  · rintro rfl
    simp [zip_self_all l₁]

/-- C1: `match_def_path` returns `true` iff the resolved absolute path of
`def_id` and the query `path` have the same length and identical segments
at every position; any length mismatch or differing segment yields
`false`, with no partial, prefix, or case-insensitive matching. -/
theorem match_def_path_exact (cx : LateContext) (def_id : DefId) (path : List String) :
    match_def_path cx def_id path = true ↔
      ((cx.item_path def_id).length = path.length ∧
        ∀ i, (cx.item_path def_id).get? i = path.get? i) := by
  rw [match_def_path, beq_zip_all_iff]
  constructor
  · rintro rfl
    exact ⟨rfl, fun _ => rfl⟩
  · rintro ⟨-, hget⟩
    exact List.ext_get?_iff.mpr hget

/-- C2: `match_marker_type` returns `some` of the call's argument list
exactly when the expression is a call whose callee is a bare path
expression resolving to the three-segment path `maud::marker::<kind>`;
a literal, a method call, and a call whose callee is not a bare path all
yield `none` regardless of kind. -/
theorem match_marker_type_spec (cx : LateContext) (expr : Expr) (k : String)
    (args : List Expr) (l : Lit) (ms : List Expr) :
    (match_marker_type cx expr k = some args ↔
      ∃ qpath hir_id, expr = Expr.call (Expr.path qpath hir_id) args ∧
        match_def_path cx (cx.qpath_def qpath hir_id) ["maud", "marker", k] = true)
    ∧ match_marker_type cx (Expr.lit l) k = none
    ∧ match_marker_type cx (Expr.methodCall ms) k = none
    ∧ match_marker_type cx (Expr.call (Expr.lit l) ms) k = none := by
  refine ⟨⟨?_, ?_⟩, rfl, rfl, rfl⟩
  · intro h
    match expr with
    | .call pe as =>
      match pe with
      | .path qp hid =>
        by_cases hc : match_def_path cx (cx.qpath_def qp hid) ["maud", "marker", k] = true
        · refine ⟨qp, hid, ?_, hc⟩
          simp only [match_marker_type, if_pos hc, Option.some.injEq] at h
          rw [h]
        · simp [match_marker_type, hc] at h
      | .call f bs => simp [match_marker_type] at h
      | .lit l₀ => simp [match_marker_type] at h
      | .addrOf m e => simp [match_marker_type] at h
      | .array es => simp [match_marker_type] at h
      | .block ss t => simp [match_marker_type] at h
      | .methodCall bs => simp [match_marker_type] at h
      | .other => simp [match_marker_type] at h
    | .path qp hid => simp [match_marker_type] at h
    | .lit l₀ => simp [match_marker_type] at h
    | .addrOf m e => simp [match_marker_type] at h
    | .array es => simp [match_marker_type] at h
    | .block ss t => simp [match_marker_type] at h
    | .methodCall bs => simp [match_marker_type] at h
    | .other => simp [match_marker_type] at h
  · rintro ⟨qp, hid, rfl, hc⟩
    simp [match_marker_type, hc]

/-- Running the element loop over a list of cooked string literals with an
already-established span folds the texts onto `content` and the spans onto
`sp` via `Span.to`. -/
lemma extract_strings_loop_map (qs : List (String × Span)) (content : String) (sp : Span) :
    extract_strings_loop (qs.map fun q => Expr.lit ⟨.Str q.1 .Cooked, q.2⟩) content (some sp) =
      some ((qs.map Prod.fst).foldl (· ++ ·) content, (qs.map Prod.snd).foldl Span.to sp) := by
  induction qs generalizing content sp with
  | nil => rfl
  | cons q t ih => simp [extract_strings_loop, ih]

/-- C3: on an immutable reference to a non-empty array whose elements are
all cooked string literals, `extract_strings` returns the concatenation of
the literals' texts in element order, paired with the span obtained by
extending the first literal's span over every subsequent literal's span. -/
theorem extract_strings_concat (ps : List (String × Span)) (p : String × Span)
    (rest : List (String × Span)) (h : ps = p :: rest) :
    extract_strings (Expr.addrOf .MutImmutable
        (Expr.array (ps.map fun q => Expr.lit ⟨.Str q.1 .Cooked, q.2⟩))) =
      some ((ps.map Prod.fst).foldl (· ++ ·) "", (rest.map Prod.snd).foldl Span.to p.2) := by
  subst h
  show extract_strings_loop
      (Expr.lit ⟨.Str p.1 .Cooked, p.2⟩ :: rest.map fun q => Expr.lit ⟨.Str q.1 .Cooked, q.2⟩)
      "" none = _
  show extract_strings_loop (rest.map fun q => Expr.lit ⟨.Str q.1 .Cooked, q.2⟩)
      ("" ++ p.1) (some p.2) = _
  rw [extract_strings_loop_map]
  simp [List.foldl_cons]

/-- Witness for C3 at the spec's example: the referenced array of cooked
literals `"ab"` and `"cd"` with spans `[0,2)` and `[2,4)` yields
`("abcd", [0,4))`. -/
theorem extract_strings_concat_witness :
    extract_strings (Expr.addrOf .MutImmutable (Expr.array
        [Expr.lit ⟨.Str "ab" .Cooked, ⟨0, 2⟩⟩, Expr.lit ⟨.Str "cd" .Cooked, ⟨2, 4⟩⟩])) =
      some ("abcd", ⟨0, 4⟩) := by
  have h := extract_strings_concat [("ab", ⟨0, 2⟩), ("cd", ⟨2, 4⟩)] ("ab", ⟨0, 2⟩)
      [("cd", ⟨2, 4⟩)] rfl
  simpa using h

/-- An expression is a cooked string literal (the only element shape
`extract_strings` accepts inside the array). -/
def is_cooked_str_lit : Expr → Bool
  | .lit ⟨.Str _ .Cooked, _⟩ => true
  | _ => false

/-- The element loop aborts with `none` whenever any element of the list
is not a cooked string literal. -/
lemma extract_strings_loop_none (args : List Expr) (e : Expr)
    (hbad : is_cooked_str_lit e = false) :
    ∀ (content : String) (sp : Option Span), e ∈ args →
      extract_strings_loop args content sp = none := by
  induction args with
  | nil => intro content sp he; cases he
  | cons a t ih =>
    intro content sp he
    rcases List.mem_cons.mp he with rfl | hm
    · match e, hbad with
      | .call f as, _ => rfl
      | .path q i, _ => rfl
      | .lit ⟨.Str s .Cooked, spn⟩, hb => simp [is_cooked_str_lit] at hb
      | .lit ⟨.Str s (.Raw n), spn⟩, _ => rfl
      | .lit ⟨.Int n, spn⟩, _ => rfl
      | .lit ⟨.other, spn⟩, _ => rfl
      | .addrOf m x, _ => rfl
      | .array es, _ => rfl
      | .block ss tl, _ => rfl
      | .methodCall as, _ => rfl
      | .other, _ => rfl
    · match a with
      | .lit ⟨.Str s .Cooked, spn⟩ =>
        cases sp with
        | none =>
          show extract_strings_loop t (content ++ s) (some spn) = none
          exact ih _ _ hm
        | some sp0 =>
          show extract_strings_loop t (content ++ s) (some (sp0.to spn)) = none
          exact ih _ _ hm
      | .call f as => rfl
      | .path q i => rfl
      | .lit ⟨.Str s (.Raw n), spn⟩ => rfl
      | .lit ⟨.Int n, spn⟩ => rfl
      | .lit ⟨.other, spn⟩ => rfl
      | .addrOf m x => rfl
      | .array es => rfl
      | .block ss tl => rfl
      | .methodCall as => rfl
      | .other => rfl

/-- C4: a referenced array containing, at any position, an element that is
not a cooked string literal makes `extract_strings` return `none`,
whatever the other elements are — no partial string is returned. -/
theorem extract_strings_rejects_non_cooked (args : List Expr) (e : Expr)
    (he : e ∈ args) (hbad : is_cooked_str_lit e = false) :
    extract_strings (Expr.addrOf .MutImmutable (Expr.array args)) = none := by
  show extract_strings_loop args "" none = none
  exact extract_strings_loop_none args e hbad "" none he

/-- Witness for C4: a valid cooked literal followed by a numeric literal
still yields `none`. -/
theorem extract_strings_rejects_non_cooked_witness :
    extract_strings (Expr.addrOf .MutImmutable (Expr.array
        [Expr.lit ⟨.Str "ab" .Cooked, ⟨0, 2⟩⟩, Expr.lit ⟨.Int 5, ⟨2, 3⟩⟩])) = none :=
  extract_strings_rejects_non_cooked _ (Expr.lit ⟨.Int 5, ⟨2, 3⟩⟩) (by simp) rfl

/-- C5: an immutable reference to an empty array yields `none` from
`extract_strings`, because no span is ever established. -/
theorem extract_strings_empty :
    extract_strings (Expr.addrOf .MutImmutable (Expr.array [])) = none := rfl

/-- C6: `extract_attrs` returns `none` exactly when the input is not a
block expression; every block — even one none of whose statements is a
recognized attribute marker — yields `some` of a (possibly empty) list,
while a non-block expression such as a bare call yields `none` even though
the call itself could match as an attribute marker call. -/
theorem extract_attrs_block_gate (cx : LateContext) (expr : Expr)
    (stmts : List Stmt) (tail : Option Expr) (f : Expr) (as : List Expr) :
    ((extract_attrs cx expr).isSome = true ↔ ∃ b t, expr = Expr.block b t)
    ∧ (extract_attrs cx (Expr.block stmts tail)).isSome = true
    ∧ extract_attrs cx (Expr.call f as) = none := by
  refine ⟨⟨?_, ?_⟩, rfl, rfl⟩
  · intro h
    match expr, h with
    | .block b t, _ => exact ⟨b, t, rfl⟩
    | .call a bs, h => simp [extract_attrs] at h
    | .path a b, h => simp [extract_attrs] at h
    | .lit l0, h => simp [extract_attrs] at h
    | .addrOf m x, h => simp [extract_attrs] at h
    | .array es, h => simp [extract_attrs] at h
    | .methodCall bs, h => simp [extract_attrs] at h
    | .other, h => simp [extract_attrs] at h
  · rintro ⟨b, t, rfl⟩
    rfl

/-- The per-statement record computed inside `extract_attrs`: a
semicolon-terminated statement whose expression is a
`maud::marker::attribute` call contributes `extract_strings` of the call's
first argument, when that argument exists; every other statement
contributes nothing. -/
def attr_of_stmt (cx : LateContext) : Stmt → Option (String × Span)
  | .semi e _ => (match_marker_type cx e "attribute").bind fun args =>
      (args.get? 0).bind extract_strings
  | _ => none

/-- The statement closure inside `extract_attrs` computes `attr_of_stmt`
on every statement of the list. -/
lemma filterMap_attr (cx : LateContext) (stmts : List Stmt) :
    (stmts.filterMap fun stmt =>
      match stmt with
      | Stmt.semi e _ =>
        match match_marker_type cx e "attribute" with
        | some args => (args.get? 0).bind extract_strings
        | none => none
      | _ => none) = stmts.filterMap (attr_of_stmt cx) := by
  simp only [List.get?_eq_getElem?]
  induction stmts with
  | nil => rfl
  | cons st t ih =>
    match st with
    | .decl => simpa [List.filterMap_cons, attr_of_stmt] using ih
    | .expr e => simpa [List.filterMap_cons, attr_of_stmt] using ih
    | .semi e id =>
      cases hmm : match_marker_type cx e "attribute" with
      | none => simp [List.filterMap_cons, attr_of_stmt, hmm, List.get?_eq_getElem?, ih]
      | some args => simp [List.filterMap_cons, attr_of_stmt, hmm, List.get?_eq_getElem?, ih]

/-- C7: on a block, `extract_attrs` returns exactly one `(string, span)`
pair per statement that (1) is a semicolon-terminated expression
statement, (2) whose expression matches the attribute marker call, and
(3) whose first argument exists and passes `extract_strings`, in the
block's statement order; every statement failing any of these conditions
is skipped without affecting the remaining records. -/
theorem extract_attrs_records (cx : LateContext) (stmts : List Stmt) (tail : Option Expr) :
    extract_attrs cx (Expr.block stmts tail) = some (stmts.filterMap (attr_of_stmt cx))
    ∧ ∀ st r, attr_of_stmt cx st = some r ↔
        ∃ e id args a, st = Stmt.semi e id
          ∧ match_marker_type cx e "attribute" = some args
          ∧ args.get? 0 = some a ∧ extract_strings a = some r := by
  constructor
  · simp only [extract_attrs, Option.some.injEq]
    exact filterMap_attr cx stmts
  · intro st r
    constructor
    · intro h
      match st, h with
      | .semi e id, h =>
        simp only [attr_of_stmt] at h
        cases hmm : match_marker_type cx e "attribute" with
        | none => rw [hmm] at h; simp at h
        | some args =>
          rw [hmm, Option.some_bind] at h
          cases ha : args.get? 0 with
          | none => rw [ha] at h; simp at h
          | some a =>
            rw [ha, Option.some_bind] at h
            exact ⟨e, id, args, a, rfl, hmm, ha, h⟩
      | .decl, h => simp [attr_of_stmt] at h
      | .expr e, h => simp [attr_of_stmt] at h
    · rintro ⟨e, id, args, a, rfl, hmm, ha, hx⟩
      simp only [attr_of_stmt]
      rw [hmm, Option.some_bind, ha, Option.some_bind]
      exact hx

/-- C8: the block's trailing tail expression is never inspected:
`extract_attrs` gives the same result over any two tails for the same
statement list, and a statement-free block whose tail is an arbitrary
expression — in particular an attribute marker call — contributes no
record at all. -/
theorem extract_attrs_ignores_tail (cx : LateContext) (stmts : List Stmt)
    (tail tail2 : Option Expr) (e : Expr) :
    extract_attrs cx (Expr.block stmts tail) = extract_attrs cx (Expr.block stmts tail2)
    ∧ extract_attrs cx (Expr.block [] (some e)) = some [] :=
  ⟨rfl, rfl⟩

/-- C9: all four functions are pure: their results depend only on the
input node and the extensional behaviour of the resolution context, so two
runs on the same unmodified tree node with the same resolution context
yield identical results. -/
theorem extractors_pure (cx cx2 : LateContext) (d : DefId) (p : List String)
    (e : Expr) (k : String)
    (hq : ∀ q i, cx.qpath_def q i = cx2.qpath_def q i)
    (hp : ∀ dd, cx.item_path dd = cx2.item_path dd) :
    match_def_path cx d p = match_def_path cx2 d p
    ∧ match_marker_type cx e k = match_marker_type cx2 e k
    ∧ extract_strings e = extract_strings e
    ∧ extract_attrs cx e = extract_attrs cx2 e := by
  have hcx : cx = cx2 := by
    cases cx
    cases cx2
    simp only [LateContext.mk.injEq]
    exact ⟨funext fun q => funext fun i => hq q i, funext hp⟩
  subst hcx
  exact ⟨rfl, rfl, rfl, rfl⟩

/-- Witness for C9 at a concrete resolution context and node. -/
theorem extractors_pure_witness :
    match_def_path ⟨fun _ _ => 0, fun _ => ["maud"]⟩ 0 ["maud"] =
      match_def_path ⟨fun _ _ => 0, fun _ => ["maud"]⟩ 0 ["maud"]
    ∧ match_marker_type ⟨fun _ _ => 0, fun _ => ["maud"]⟩ Expr.other "attribute" =
      match_marker_type ⟨fun _ _ => 0, fun _ => ["maud"]⟩ Expr.other "attribute"
    ∧ extract_strings Expr.other = extract_strings Expr.other
    ∧ extract_attrs ⟨fun _ _ => 0, fun _ => ["maud"]⟩ Expr.other =
      extract_attrs ⟨fun _ _ => 0, fun _ => ["maud"]⟩ Expr.other :=
  extractors_pure ⟨fun _ _ => 0, fun _ => ["maud"]⟩ ⟨fun _ _ => 0, fun _ => ["maud"]⟩
    0 ["maud"] Expr.other "attribute" (fun _ _ => rfl) (fun _ => rfl)

/-- Number of array elements the element loop of `extract_strings`
examines: one per element until the first mismatch, so each element is
visited at most once. -/
def extract_strings_steps : List Expr → Nat
  | [] => 0
  | e :: rest =>
    match e with
    | .lit l =>
      match l.node with
      | .Str _ .Cooked => 1 + extract_strings_steps rest
      | _ => 1
    | _ => 1

/-- C10: each of the four functions is total — on every well-typed input
it terminates with a value or an explicit absence, never an unhandled
failure (all are structurally recursive, so the kernel certifies
termination) — and the element loop of `extract_strings` is single-pass:
it examines at most one step per array element. -/
theorem extractors_total (cx : LateContext) (d : DefId) (p : List String)
    (e : Expr) (k : String) (args : List Expr) :
    (match_def_path cx d p = true ∨ match_def_path cx d p = false)
    ∧ (match_marker_type cx e k = none ∨ ∃ as, match_marker_type cx e k = some as)
    ∧ (extract_strings e = none ∨ ∃ v, extract_strings e = some v)
    ∧ (extract_attrs cx e = none ∨ ∃ l, extract_attrs cx e = some l)
    ∧ extract_strings_steps args ≤ args.length := by
  refine ⟨?_, ?_, ?_, ?_, ?_⟩
  · cases match_def_path cx d p with
    | true => exact Or.inl rfl
    | false => exact Or.inr rfl
  · cases match_marker_type cx e k with
    | none => exact Or.inl rfl
    | some as => exact Or.inr ⟨as, rfl⟩
  · cases extract_strings e with
    | none => exact Or.inl rfl
    | some v => exact Or.inr ⟨v, rfl⟩
  · cases extract_attrs cx e with
    | none => exact Or.inl rfl
    | some l => exact Or.inr ⟨l, rfl⟩
  · induction args with
    | nil => simp [extract_strings_steps]
    | cons a t ih =>
      match a with
      | .lit ⟨.Str s .Cooked, spn⟩ =>
        show 1 + extract_strings_steps t ≤ t.length + 1
        omega
      | .lit ⟨.Str s (.Raw n), spn⟩ =>
        show 1 ≤ t.length + 1
        omega
      | .lit ⟨.Int n, spn⟩ =>
        show 1 ≤ t.length + 1
        omega
      | .lit ⟨.other, spn⟩ =>
        show 1 ≤ t.length + 1
        omega
      | .call f as =>
        show 1 ≤ t.length + 1
        omega
      | .path q i =>
        show 1 ≤ t.length + 1
        omega
      | .addrOf m x =>
        show 1 ≤ t.length + 1
        omega
      | .array es =>
        show 1 ≤ t.length + 1
        omega
      | .block ss tl =>
        show 1 ≤ t.length + 1
        omega
      | .methodCall bs =>
        show 1 ≤ t.length + 1
        omega
      | .other =>
        show 1 ≤ t.length + 1
        omega

end MaudUtil
